import Mathlib

/-!
Verification development for the multinomial (softmax) regression
posterior-predictive pipeline of the sea-ice notebook.

The notebook's core numerical steps are embedded shallowly:

* covariate scaling (affine rescaling of time/latitude, periodic cosine
  rescaling of longitude);
* the total-order multi-index set and the probabilist-Hermite Vandermonde
  matrix (`BasisExpansion(...).BuildVandermonde`);
* the block "stamping" loop building the full design matrix
  (`V[c::numClasses, c*T:(c+1)*T] = partialV`);
* the posterior work graph (Parameters / Prior / ForwardModel /
  Likelihood / Posterior nodes joined by edges, evaluated recursively);
* the posterior-predictive aggregation loop (softmax of `V @ sample`,
  normalised over the class axis) together with numpy-style mean and
  linear-interpolation percentile summaries.

Matrices are total functions `ℕ → ℕ → ℝ` together with explicit
dimensions; out-of-range entries are irrelevant to every statement.
-/

open Finset

noncomputable section

/-- Matrix–vector product `V @ m` restricted to the first `cols` columns,
mirroring `np.dot(V, m)`. -/
def matVec (V : ℕ → ℕ → ℝ) (cols : ℕ) (m : ℕ → ℝ) : ℕ → ℝ :=
  fun r => ∑ j ∈ Finset.range cols, V r j * m j

/-- One pass of the numpy slice assignment
`V[c::K, c*T:(c+1)*T] = partialV` on a matrix with `K*N` rows:
rows congruent to `c` mod `K` receive the rows of `A` in the column
window `[c*T, (c+1)*T)`; every other entry is left unchanged. -/
def stampSlice (N K T c : ℕ) (A : ℕ → ℕ → ℝ) (V : ℕ → ℕ → ℝ) : ℕ → ℕ → ℝ :=
  fun r j =>
    if r < K * N ∧ r % K = c ∧ c * T ≤ j ∧ j < (c + 1) * T then
      A (r / K) (j - c * T)
    else V r j

/-- The stamping loop
`V = np.zeros((K*N, K*T)); for c in range(K): V[c::K, c*T:(c+1)*T] = partialV`
from the notebook, as a fold over `range K` starting from the zero matrix. -/
def blockV (N K T : ℕ) (A : ℕ → ℕ → ℝ) : ℕ → ℕ → ℝ :=
  (List.range K).foldl (fun V c => stampSlice N K T c A V) (fun _ _ => 0)

/-- Closed form of the partial fold: after stamping classes `0,…,k-1`,
an entry is set exactly when its row class `r % K` is below `k` and the
column lies in that class's window. -/
lemma blockV_partial (N K T : ℕ) (A : ℕ → ℕ → ℝ) (k : ℕ) (r j : ℕ) :
    (List.range k).foldl (fun V c => stampSlice N K T c A V) (fun _ _ => 0) r j =
      if r < K * N ∧ r % K < k ∧ r % K * T ≤ j ∧ j < (r % K + 1) * T then
        A (r / K) (j - r % K * T)
      else 0 := by
  induction k with
  | zero => simp
  | succ k ih =>
    rw [List.range_succ, List.foldl_append]
    simp only [List.foldl_cons, List.foldl_nil, stampSlice]
    by_cases hset : r < K * N ∧ r % K = k ∧ k * T ≤ j ∧ j < (k + 1) * T
    · rw [if_pos hset]
      obtain ⟨h1, h2, h3, h4⟩ := hset
      rw [if_pos ⟨h1, by omega, by rw [h2]; exact h3, by rw [h2]; exact h4⟩, h2]
    · rw [if_neg hset, ih]
      by_cases hold : r < K * N ∧ r % K < k ∧ r % K * T ≤ j ∧ j < (r % K + 1) * T
      · rw [if_pos hold, if_pos ⟨hold.1, by omega, hold.2.2.1, hold.2.2.2⟩]
      · rw [if_neg hold, if_neg (by
          intro hc
          rcases hc with ⟨h1, h2, h3, h4⟩
          rcases Nat.lt_succ_iff_lt_or_eq.mp h2 with h2l | h2e
          · exact hold ⟨h1, h2l, h3, h4⟩
          · exact hset ⟨h1, h2e, by rw [← h2e]; exact h3, by rw [← h2e]; exact h4⟩)]

/-- Closed form of the full stamping loop. -/
lemma blockV_eq (N K T : ℕ) (A : ℕ → ℕ → ℝ) (r j : ℕ) :
    blockV N K T A r j =
      if r < K * N ∧ r % K * T ≤ j ∧ j < (r % K + 1) * T then
        A (r / K) (j - r % K * T)
      else 0 := by
  rw [blockV, blockV_partial]
  by_cases hK : 0 < K
  · have hmod : r % K < K := Nat.mod_lt _ hK
    by_cases h : r < K * N ∧ r % K * T ≤ j ∧ j < (r % K + 1) * T
    · rw [if_pos ⟨h.1, hmod, h.2.1, h.2.2⟩, if_pos h]
    · rw [if_neg (by intro hc; exact h ⟨hc.1, hc.2.2.1, hc.2.2.2⟩), if_neg h]
  · have hK0 : K = 0 := by omega
    subst hK0
    simp

/-- Expected toy output `[[1,0],[0,1],[2,0],[0,2]]` for the block
assembler at `N = 2`, `K = 2`, `T = 1` with per-class matrix `[[1],[2]]`. -/
def toyBlock : ℕ → ℕ → ℝ :=
  fun r j => (([[1, 0], [0, 1], [2, 0], [0, 2]] : List (List ℝ)).getD r []).getD j 0

/-- C1: the stamping loop places the row block for observation `n` and
class `c` at global row `n*K + c`, nonzero only in columns
`[c*T, (c+1)*T)` (where it reproduces the per-class matrix), all other
entries being zero; and on the toy case `N = 2`, `K = 2`, `T = 1` with
per-class matrix `[[1],[2]]` the output is `[[1,0],[0,1],[2,0],[0,2]]`. -/
theorem blockV_structure :
    (∀ (A : ℕ → ℕ → ℝ) (N K T n c j : ℕ), 1 ≤ N → 1 ≤ K →
      n < N → c < K → j < K * T →
      blockV N K T A (n * K + c) j =
        if c * T ≤ j ∧ j < (c + 1) * T then A n (j - c * T) else 0) ∧
    (∀ r j : ℕ, r < 4 → j < 2 →
      blockV 2 2 1 (fun n _ => (n + 1 : ℝ)) r j = toyBlock r j) := by
  constructor
  · intro A N K T n c j hN hK hn hc hj
    have hmod : (n * K + c) % K = c := by
      rw [Nat.add_comm, Nat.add_mul_mod_self_right, Nat.mod_eq_of_lt hc]
    have hdiv : (n * K + c) / K = n := by
      rw [Nat.add_comm, Nat.add_mul_div_right _ _ (by omega : 0 < K)]
      have h0 : c / K = 0 := Nat.div_eq_of_lt hc
      omega
    have hrow : n * K + c < K * N := by
      have h1 : n * K + c < (n + 1) * K := by
        rw [Nat.add_mul, Nat.one_mul]
        omega
      have h2 : (n + 1) * K ≤ N * K := Nat.mul_le_mul_right K (by omega)
      rw [Nat.mul_comm K N]
      omega
    rw [blockV_eq, hmod, hdiv]
    by_cases h : c * T ≤ j ∧ j < (c + 1) * T
    · rw [if_pos ⟨hrow, h.1, h.2⟩, if_pos h]
    · rw [if_neg (by intro hc2; exact h ⟨hc2.2.1, hc2.2.2⟩), if_neg h]
  · intro r j hr hj
    rw [blockV_eq]
    interval_cases r <;> interval_cases j <;> norm_num [toyBlock]

/-- Witness for C1: the toy block matrix's top-left entry is `1`. -/
theorem blockV_structure_witness :
    blockV 2 2 1 (fun n _ => (n + 1 : ℝ)) 0 0 = toyBlock 0 0 :=
  blockV_structure.2 0 0 (by norm_num) (by norm_num)

/-- Log-density of a Gaussian with independent coordinates: mean `mean`,
diagonal covariance `varDiag`, on the first `d` coordinates
(`mm.Gaussian(mu, Sigma).AsDensity()` with diagonal `Sigma`). -/
def gaussianLogDensity (d : ℕ) (mean varDiag : ℕ → ℝ) (x : ℕ → ℝ) : ℝ :=
  ∑ i ∈ Finset.range d,
    (-(1 / 2) * ((x i - mean i) ^ 2 / varDiag i + Real.log (2 * Real.pi * varDiag i)))

/-- Multinomial-logit log-likelihood
(`mm.MultiLogisticLikelihood(K, labels)`): predictors are interleaved by
class (`s (n*K + c)` is the linear predictor of class `c` at observation
`n`), and each observation contributes
`log softmax(predictors)[label n]`. -/
def multiLogisticLogDensity (K N : ℕ) (labels : ℕ → ℕ) (s : ℕ → ℝ) : ℝ :=
  ∑ n ∈ Finset.range N,
    (s (n * K + labels n) -
      Real.log (∑ c ∈ Finset.range K, Real.exp (s (n * K + c))))

/-- The work-graph node kinds the notebook uses: `IdentityOperator`,
`Gaussian(...).AsDensity()`, `DenseLinearOperator`,
`MultiLogisticLikelihood` and `DensityProduct`. -/
inductive ModPiece where
  | identityOperator (n : ℕ)
  | gaussianAsDensity (d : ℕ) (mean varDiag : ℕ → ℝ)
  | denseLinearOperator (rows cols : ℕ) (V : ℕ → ℕ → ℝ)
  | multiLogisticLikelihood (K N : ℕ) (labels : ℕ → ℕ)
  | densityProduct (n : ℕ)

/-- Number of input slots of each node kind (`DensityProduct(n)` has `n`
inputs; every other piece here has one). -/
def ModPiece.numInputs : ModPiece → ℕ
  | .identityOperator _ => 1
  | .gaussianAsDensity _ _ _ => 1
  | .denseLinearOperator _ _ _ => 1
  | .multiLogisticLikelihood _ _ _ => 1
  | .densityProduct n => n

/-- Evaluation of one node given its input vectors.  Density nodes
return their scalar log-density (as a constant vector); `DensityProduct`
adds the log-densities of its inputs. -/
def ModPiece.eval : ModPiece → List (ℕ → ℝ) → (ℕ → ℝ)
  | .identityOperator _, inputs => inputs.getD 0 (fun _ => 0)
  | .gaussianAsDensity d mean varDiag, inputs =>
      fun _ => gaussianLogDensity d mean varDiag (inputs.getD 0 (fun _ => 0))
  | .denseLinearOperator _ cols V, inputs =>
      matVec V cols (inputs.getD 0 (fun _ => 0))
  | .multiLogisticLikelihood K N labels, inputs =>
      fun _ => multiLogisticLogDensity K N labels (inputs.getD 0 (fun _ => 0))
  | .densityProduct n, inputs =>
      fun _ => ∑ i ∈ Finset.range n, (inputs.getD i (fun _ => 0)) 0

/-- A work graph: named nodes plus edges
`(source, sourceSlot, destination, destinationSlot)`, as built by
`graph.AddNode` / `graph.AddEdge`. -/
structure WorkGraph where
  nodes : List (String × ModPiece)
  edges : List (String × ℕ × String × ℕ)

/-- Recursive evaluation of a node: each input slot is filled from the
unique incoming edge (evaluating its source first); a slot with no
incoming edge receives the external input `m` (this is how
`CreateModPiece` exposes the unwired `Parameters` input).  `fuel` bounds
the recursion depth. -/
def evalNode (g : WorkGraph) (m : ℕ → ℝ) : ℕ → String → (ℕ → ℝ)
  | 0, _ => fun _ => 0
  | fuel + 1, name =>
    match g.nodes.find? (fun nd => nd.1 == name) with
    | none => fun _ => 0
    | some nd =>
      nd.2.eval ((List.range nd.2.numInputs).map (fun slot =>
        match g.edges.find? (fun e => e.2.2.1 == name && e.2.2.2 == slot) with
        | some e => evalNode g m fuel e.1
        | none => m))

/-- The posterior graph of the notebook: `Parameters` feeds `Prior` and
`ForwardModel`, `ForwardModel` feeds `Likelihood`, and `Prior` and
`Likelihood` feed slots `0` and `1` of the `Posterior` density product,
with `K` classes, `N` observations, `T` terms per class, block design
matrix `V` and observed labels `labels`. -/
def iceGraph (K N T : ℕ) (V : ℕ → ℕ → ℝ) (labels : ℕ → ℕ) : WorkGraph where
  nodes :=
    [("Parameters", .identityOperator (K * T)),
     ("Posterior", .densityProduct 2),
     ("Prior", .gaussianAsDensity (K * T) (fun _ => 0) (fun _ => 100)),
     ("ForwardModel", .denseLinearOperator (K * N) (K * T) V),
     ("Likelihood", .multiLogisticLikelihood K N labels)]
  edges :=
    [("Parameters", 0, "Prior", 0),
     ("Parameters", 0, "ForwardModel", 0),
     ("ForwardModel", 0, "Likelihood", 0),
     ("Likelihood", 0, "Posterior", 1),
     ("Prior", 0, "Posterior", 0)]

/-- Evaluating the `Posterior` node of the notebook's graph splits into
the prior log-density plus the likelihood log-density of `V @ m`. -/
lemma evalPosterior_eq (K N T : ℕ) (V : ℕ → ℕ → ℝ) (labels : ℕ → ℕ) (m : ℕ → ℝ) :
    evalNode (iceGraph K N T V labels) m 5 "Posterior" 0 =
      gaussianLogDensity (K * T) (fun _ => 0) (fun _ => 100) m +
        multiLogisticLogDensity K N labels (matVec V (K * T) m) := by
  simp [evalNode, iceGraph, List.find?, ModPiece.eval, ModPiece.numInputs,
    List.range_succ, Finset.sum_range_succ]

/-- C2: the composed Posterior node evaluates, for every parameter
vector `m` and label array `labels`, to exactly
`prior_log_density(m) + likelihood_log_density(V @ m, labels)`. -/
theorem posterior_graph_eval (K N T : ℕ) (V : ℕ → ℕ → ℝ) (labels : ℕ → ℕ) (m : ℕ → ℝ) :
    evalNode (iceGraph K N T V labels) m 5 "Posterior" 0 =
      gaussianLogDensity (K * T) (fun _ => 0) (fun _ => 100) m +
        multiLogisticLogDensity K N labels (matVec V (K * T) m) :=
  evalPosterior_eq K N T V labels m

/-- The total-order multi-index set
(`mu.MultiIndexFactory.CreateTotalOrder(D, P)`): all tuples of `D`
non-negative integers with sum at most `P`, in a fixed deterministic
order. -/
def totalOrderIndices : ℕ → ℕ → List (List ℕ)
  | 0, _ => [[]]
  | D + 1, P =>
      (List.range (P + 1)).flatMap
        (fun d => (totalOrderIndices D (P - d)).map (fun α => d :: α))

/-- Probabilist Hermite polynomials (`ma.ProbabilistHermite()`), via the
three-term recurrence `He_{n+1}(x) = x·He_n(x) − n·He_{n-1}(x)`. -/
def probHermite : ℕ → ℝ → ℝ
  | 0, _ => 1
  | 1, x => x
  | n + 2, x => x * probHermite (n + 1) x - (n + 1) * probHermite n x

/-- The Vandermonde builder
`ma.BasisExpansion([poly]*D, multiSet).BuildVandermonde(X)` for the
probabilist-Hermite family: `X` is the `D × N` covariate array
(`X d n` is covariate `d` of observation `n`), and row `n` holds, for
each multi-index `α`, the product over the dimensions of the Hermite
polynomial of degree `α d` at `X d n`. -/
def buildVandermonde (D P N : ℕ) (X : ℕ → ℕ → ℝ) : List (List ℝ) :=
  (List.range N).map (fun n =>
    (totalOrderIndices D P).map (fun α =>
      ∏ d ∈ Finset.range D, probHermite (α.getD d 0) (X d n)))

/-- Counterexample for C8: the Basis Expansion Builder does not fail on
non-positive dimensions or orders, nor on covariates of any magnitude:
at `D = 0, P = 0, N = 1` and at `D = 1, P = 0, N = 1` with covariate
value `10^6` it returns the well-formed matrix `[[1]]` instead of
rejecting. -/
theorem buildVandermonde_no_reject :
    buildVandermonde 0 0 1 (fun _ _ => 0) = [[1]] ∧
    buildVandermonde 1 0 1 (fun _ _ => 1000000) = [[1]] := by
  constructor <;>
    simp [buildVandermonde, totalOrderIndices, probHermite, List.range_succ]

/-- C8 (amended): the Basis Expansion Builder is total and performs no
validation: for every `D`, `P`, `N` and covariate array it returns a
matrix of `N` rows, each with one well-defined real entry per
multi-index of the total-order set. -/
theorem buildVandermonde_shape (D P N : ℕ) (X : ℕ → ℕ → ℝ) :
    (buildVandermonde D P N X).map List.length =
      List.replicate N (totalOrderIndices D P).length := by
  rw [buildVandermonde, List.map_map]
  refine List.eq_replicate_iff.mpr ⟨by simp, ?_⟩
  intro b hb
  simp only [List.mem_map, Function.comp_apply] at hb
  obtain ⟨n, _, hn⟩ := hb
  rw [← hn, List.length_map]

/-- The four covariate values `x = [0, 0.25, 0.75, 1]` of the
end-to-end scenario, as a `1 × 4` covariate array. -/
def scenX : ℕ → ℕ → ℝ := fun _ n => ([0, 0.25, 0.75, 1] : List ℝ).getD n 0

/-- The scenario labels `[0, 1, 0, 1]`. -/
def scenLabels : ℕ → ℕ := fun n => ([0, 1, 0, 1] : List ℕ).getD n 0

/-- Per-class design matrix of the scenario: order-1 basis `[1, x]` in
one covariate dimension at the four scenario points. -/
def scenPartialV : List (List ℝ) := buildVandermonde 1 1 4 scenX

/-- Scenario block design matrix: the per-class matrix stamped for
`K = 2` classes (`N = 4`, `T = 2`). -/
def scenV : ℕ → ℕ → ℝ :=
  blockV 4 2 2 (fun r c => (scenPartialV.getD r []).getD c 0)

/-- C4: in the scenario (2 classes, order-1 basis `[1, x]`, labels
`[0,1,0,1]` at `x = [0, 0.25, 0.75, 1]`, prior variance `100·I`),
evaluating the composed posterior at the all-zeros vector gives the
prior log-density at zero plus `4·log(1/2)`: the zero parameter makes
all classes equiprobable. -/
theorem posterior_at_zero_scenario :
    evalNode (iceGraph 2 4 2 scenV scenLabels) (fun _ => 0) 5 "Posterior" 0 =
      gaussianLogDensity 4 (fun _ => 0) (fun _ => 100) (fun _ => 0) +
        4 * Real.log (1 / 2) := by
  rw [evalPosterior_eq]
  have hzero : matVec scenV (2 * 2) (fun _ => 0) = fun _ => 0 := by
    funext r
    simp [matVec]
  rw [hzero]
  have hlik : multiLogisticLogDensity 2 4 scenLabels (fun _ => 0) =
      4 * Real.log (1 / 2) := by
    simp [multiLogisticLogDensity, Real.exp_zero, Real.log_inv]
  rw [hlik]

/-- One slice of the posterior-predictive aggregation loop:
`currProb = np.exp(np.dot(V, s).reshape(-1, K).T); currProb /= np.sum(currProb, axis=0)`.
Entry `(c, p)` is the softmax probability of class `c` at prediction
point `p` under the sampled parameter vector `s`. -/
def classProbs (K : ℕ) (V : ℕ → ℕ → ℝ) (cols : ℕ) (s : ℕ → ℝ) (c p : ℕ) : ℝ :=
  Real.exp (matVec V cols s (p * K + c)) /
    ∑ c2 ∈ Finset.range K, Real.exp (matVec V cols s (p * K + c2))

/-- C3: for every sample column and every prediction point the
aggregated class probabilities sum to `1` over the class axis, in
particular to `1` within `10⁻⁹`. -/
theorem classProbs_sum_one (K : ℕ) (V : ℕ → ℕ → ℝ) (cols : ℕ) (s : ℕ → ℝ)
    (p : ℕ) (hK : 1 ≤ K) :
    |(∑ c ∈ Finset.range K, classProbs K V cols s c p) - 1| ≤ 1 / 1000000000 := by
  have hpos : 0 < ∑ c2 ∈ Finset.range K, Real.exp (matVec V cols s (p * K + c2)) := by
    refine Finset.sum_pos (fun c2 _ => Real.exp_pos _) ?_
    exact Finset.nonempty_range_iff.mpr (by omega)
  have hsum : (∑ c ∈ Finset.range K, classProbs K V cols s c p) = 1 := by
    simp only [classProbs]
    rw [← Finset.sum_div]
    exact div_self (ne_of_gt hpos)
  rw [hsum]
  norm_num

/-- Witness for C3: the single-class probabilities at the zero matrix
sum to `1` within `10⁻⁹`. -/
theorem classProbs_sum_one_witness :
    |(∑ c ∈ Finset.range 1, classProbs 1 (fun _ _ => 0) 1 (fun _ => 0) c 0) - 1| ≤
      1 / 1000000000 :=
  classProbs_sum_one 1 (fun _ _ => 0) 1 (fun _ => 0) 0 (by norm_num)

/-- The posterior-predictive aggregation cell:
`probs = np.zeros((K, M, NumSamples - burnIn)); for i in range(burnIn, NumSamples): ...`.
`numpy` rejects a negative third dimension (`NumSamples < burnIn`),
modelled as `none`; otherwise the loop fills one softmax slice per
retained sample and the cell returns the list of slices (slice `j`
comes from sample column `burnIn + j`). -/
def aggregate (K M NumSamples burnIn : ℕ) (V : ℕ → ℕ → ℝ) (cols : ℕ)
    (sampMat : ℕ → ℕ → ℝ) : Option (List (ℕ → ℕ → ℝ)) :=
  if NumSamples < burnIn then none
  else some ((List.range (NumSamples - burnIn)).map (fun j =>
    fun c p => classProbs K V cols (fun idx => sampMat idx (burnIn + j)) c p))

/-- Counterexample for C5: with `burnIn = NumSamples = 1` (zero retained
samples) the aggregation cell does not fail at all: it returns the empty
Class-Probability Tensor `some []` instead of raising a
`DegenerateSampleSet` error. -/
theorem aggregate_empty_no_error :
    aggregate 3 1 1 1 (fun _ _ => 0) 1 (fun _ _ => 0) = some [] := by
  rw [aggregate, if_neg (by norm_num)]
  norm_num

/-- C5 (amended): when `burnIn = NumSamples` the aggregator silently
returns the empty tensor `some []`; only when `burnIn` strictly exceeds
`NumSamples` does it fail, and that failure is numpy's rejection of a
negative dimension, not a `DegenerateSampleSet` error. -/
theorem aggregate_zero_retained (K M NumSamples burnIn : ℕ) (V : ℕ → ℕ → ℝ)
    (cols : ℕ) (sampMat : ℕ → ℕ → ℝ) :
    (burnIn = NumSamples →
      aggregate K M NumSamples burnIn V cols sampMat = some []) ∧
    (NumSamples < burnIn →
      aggregate K M NumSamples burnIn V cols sampMat = none) := by
  constructor
  · intro h
    subst h
    rw [aggregate, if_neg (by omega)]
    simp
  · intro h
    rw [aggregate, if_pos h]

/-- Witness for C5 (amended): at `NumSamples = burnIn = 1` the
aggregator returns `some []`, and at `NumSamples = 1 < burnIn = 2` it
fails. -/
theorem aggregate_zero_retained_witness :
    aggregate 3 1 1 1 (fun _ _ => 0) 1 (fun _ _ => 0) = some [] ∧
    aggregate 3 1 1 2 (fun _ _ => 0) 1 (fun _ _ => 0) = none :=
  ⟨(aggregate_zero_retained 3 1 1 1 (fun _ _ => 0) 1 (fun _ _ => 0)).1 rfl,
   (aggregate_zero_retained 3 1 1 2 (fun _ _ => 0) 1 (fun _ _ => 0)).2 (by norm_num)⟩

/-- The affine rescaling used for time and latitude:
`(raw - min) / (max - min)`. -/
def scaleAffine (lo hi x : ℝ) : ℝ := (x - lo) / (hi - lo)

/-- The periodic cosine rescaling used for longitude:
`0.5 * cos(2π (raw - min)/(max - min)) + 0.5`. -/
def scaleLon (lo hi x : ℝ) : ℝ :=
  0.5 * Real.cos (2 * Real.pi * (x - lo) / (hi - lo)) + 0.5

/-- Computation of `np.min` on a data column (the data arrays are nonempty). -/
def npMin : List ℝ → ℝ
  | [] => 0
  | x :: xs => xs.foldl min x

/-- Computation of `np.max` on a data column (the data arrays are nonempty). -/
def npMax : List ℝ → ℝ
  | [] => 0
  | x :: xs => xs.foldl max x

/-- The affine rescaling with numpy's float behaviour of the division
made explicit: dividing by a zero denominator produces a non-finite
value (`inf`/`nan`), modelled as `none`. -/
def scaleAffineChecked (lo hi x : ℝ) : Option ℝ :=
  if hi - lo = 0 then none else some (scaleAffine lo hi x)

/-- The cosine longitude rescaling with numpy's float behaviour of the
division made explicit: a zero denominator makes the cosine's argument
non-finite (`inf`/`nan`), so `cos` of it — and hence the whole scaled
longitude — is `nan`, modelled as `none`. -/
def scaleLonChecked (lo hi x : ℝ) : Option ℝ :=
  if hi - lo = 0 then none else some (scaleLon lo hi x)

/-- Counterexample for C7: a prediction year beyond the training maximum
scales outside `[0,1]`: with training extrema `minTime = 1984`,
`maxTime = 2016`, the prediction year `2040` rescales to `1.75`. -/
theorem scaleAffine_out_of_range :
    scaleAffine 1984 2016 2040 ∉ Set.Icc (0 : ℝ) 1 := by
  simp only [Set.mem_Icc, scaleAffine]
  norm_num

/-- C7 (amended): every scaled training covariate lies in `[0,1]`
(raw value between the extrema, extrema distinct), and the cosine
longitude map lands in `[0,1]` for every input; but the affine
time/latitude maps exceed `1` on any prediction point whose raw value
lies above the training maximum. -/
theorem scaling_ranges :
    (∀ lo hi x : ℝ, lo ≤ x → x ≤ hi → lo < hi →
      scaleAffine lo hi x ∈ Set.Icc (0 : ℝ) 1) ∧
    (∀ lo hi x : ℝ, scaleLon lo hi x ∈ Set.Icc (0 : ℝ) 1) ∧
    (∀ lo hi x : ℝ, lo < hi → hi < x → 1 < scaleAffine lo hi x) := by
  refine ⟨fun lo hi x hlox hxhi hlohi => ?_, fun lo hi x => ?_,
    fun lo hi x hlohi hhix => ?_⟩
  · have hpos : (0 : ℝ) < hi - lo := sub_pos.mpr hlohi
    simp only [Set.mem_Icc, scaleAffine]
    constructor
    · exact div_nonneg (by linarith) (le_of_lt hpos)
    · rw [div_le_one hpos]
      linarith
  · have h1 : -1 ≤ Real.cos (2 * Real.pi * (x - lo) / (hi - lo)) :=
      Real.neg_one_le_cos _
    have h2 : Real.cos (2 * Real.pi * (x - lo) / (hi - lo)) ≤ 1 :=
      Real.cos_le_one _
    constructor <;> simp only [scaleLon] <;> nlinarith
  · have hpos : (0 : ℝ) < hi - lo := sub_pos.mpr hlohi
    rw [scaleAffine, lt_div_iff₀ hpos]
    linarith

/-- Witness for C7 (amended): concrete instances of the three range
facts. -/
theorem scaling_ranges_witness :
    scaleAffine 0 2 1 ∈ Set.Icc (0 : ℝ) 1 ∧
    scaleLon 0 1 5 ∈ Set.Icc (0 : ℝ) 1 ∧
    1 < scaleAffine 0 1 2 :=
  ⟨scaling_ranges.1 0 2 1 (by norm_num) (by norm_num) (by norm_num),
   scaling_ranges.2.1 0 1 5,
   scaling_ranges.2.2 0 1 2 (by norm_num) (by norm_num)⟩

/-- C9: whenever `max > min` the affine time/latitude rescaling is
injective, while the cosine longitude rescaling is not: the two distinct
raw longitudes `min` and `max` of the data range map to the same scaled
value. -/
theorem scaling_injectivity :
    (∀ lo hi : ℝ, lo < hi → Function.Injective (scaleAffine lo hi)) ∧
    (∀ lo hi : ℝ, lo < hi →
      lo ≠ hi ∧ scaleLon lo hi lo = scaleLon lo hi hi) := by
  constructor
  · intro lo hi h a b hab
    have hne : hi - lo ≠ 0 := ne_of_gt (sub_pos.mpr h)
    simp only [scaleAffine] at hab
    rw [div_eq_div_iff hne hne] at hab
    have h2 := mul_right_cancel₀ hne hab
    linarith
  · intro lo hi h
    have hne : hi - lo ≠ 0 := ne_of_gt (sub_pos.mpr h)
    refine ⟨ne_of_lt h, ?_⟩
    simp only [scaleLon, sub_self, mul_zero, zero_div, Real.cos_zero]
    rw [mul_div_assoc, div_self hne]
    norm_num [Real.cos_two_pi]

/-- Witness for C9: with range `[0, 1]` the longitudes `0` and `1` are
distinct yet share a scaled value. -/
theorem scaling_injectivity_witness :
    (0 : ℝ) ≠ 1 ∧ scaleLon 0 1 0 = scaleLon 0 1 1 :=
  scaling_injectivity.2 0 1 (by norm_num)

/-- Folding `min` over a list of copies of `a`, starting at `a`,
returns `a`. -/
lemma foldl_min_const (a : ℝ) (xs : List ℝ) (h : ∀ y ∈ xs, y = a) :
    xs.foldl min a = a := by
  induction xs with
  | nil => rfl
  | cons y ys ih =>
    rw [List.foldl_cons, h y (List.mem_cons_self y ys), min_self]
    exact ih (fun z hz => h z (List.mem_cons_of_mem _ hz))

/-- Folding `max` over a list of copies of `a`, starting at `a`,
returns `a`. -/
lemma foldl_max_const (a : ℝ) (xs : List ℝ) (h : ∀ y ∈ xs, y = a) :
    xs.foldl max a = a := by
  induction xs with
  | nil => rfl
  | cons y ys ih =>
    rw [List.foldl_cons, h y (List.mem_cons_self y ys), max_self]
    exact ih (fun z hz => h z (List.mem_cons_of_mem _ hz))

/-- C10: every scaling formula — affine time, affine latitude and
cosine longitude — divides by `max - min` with no guard: on a nonempty
data column whose raw values are all equal the divisor is zero and the
(float) division makes the scaled covariate non-finite, for the affine
maps directly and for the longitude map through the cosine's non-finite
argument; under the precondition `max > min` the division-by-zero
branch of every formula is unreachable and each checked scaling agrees
with the exact formula. -/
theorem scaling_degenerate_guard :
    (∀ (l : List ℝ) (a x : ℝ), l ≠ [] → (∀ y ∈ l, y = a) →
      npMax l - npMin l = 0 ∧
      scaleAffineChecked (npMin l) (npMax l) x = none ∧
      scaleLonChecked (npMin l) (npMax l) x = none) ∧
    (∀ lo hi x : ℝ, lo < hi →
      scaleAffineChecked lo hi x = some (scaleAffine lo hi x) ∧
      scaleLonChecked lo hi x = some (scaleLon lo hi x)) := by
  constructor
  · intro l a x hne hall
    match l, hne with
    | y :: ys, _ =>
      have hy : y = a := hall y (List.mem_cons_self y ys)
      have hys : ∀ z ∈ ys, z = a := fun z hz => hall z (List.mem_cons_of_mem _ hz)
      have hmin : npMin (y :: ys) = a := by
        rw [npMin, hy]
        exact foldl_min_const a ys hys
      have hmax : npMax (y :: ys) = a := by
        rw [npMax, hy]
        exact foldl_max_const a ys hys
      have hzero : npMax (y :: ys) - npMin (y :: ys) = 0 := by
        rw [hmin, hmax, sub_self]
      refine ⟨hzero, ?_, ?_⟩
      · rw [scaleAffineChecked, if_pos hzero]
      · rw [scaleLonChecked, if_pos hzero]
  · intro lo hi x h
    have hne : hi - lo ≠ 0 := ne_of_gt (sub_pos.mpr h)
    exact ⟨by rw [scaleAffineChecked, if_neg hne],
      by rw [scaleLonChecked, if_neg hne]⟩

/-- Witness for C10: the constant column `[1, 1]` has zero extent and
non-finite affine and longitude scalings, while the range `[0, 1]`
scales normally under both formulas. -/
theorem scaling_degenerate_guard_witness :
    (npMax [1, 1] - npMin [1, 1] = 0 ∧
      scaleAffineChecked (npMin [1, 1]) (npMax [1, 1]) 5 = none ∧
      scaleLonChecked (npMin [1, 1]) (npMax [1, 1]) 5 = none) ∧
    (scaleAffineChecked 0 1 7 = some (scaleAffine 0 1 7) ∧
      scaleLonChecked 0 1 7 = some (scaleLon 0 1 7)) :=
  ⟨scaling_degenerate_guard.1 [1, 1] 1 5 (by simp) (by simp),
   scaling_degenerate_guard.2 0 1 7 (by norm_num)⟩

/-- Computation of `np.mean` on a sample list: sum divided by length. -/
def npMean (xs : List ℝ) : ℝ := xs.sum / xs.length

/-- Computation of `np.percentile(xs, q)` with numpy's default linear
interpolation:
sort the data, take the fractional position `pos = (q/100)·(n-1)`, and
interpolate linearly between the neighbouring order statistics. -/
def npPercentile (q : ℝ) (xs : List ℝ) : ℝ :=
  let ys := List.insertionSort (fun a b => a ≤ b) xs
  let n := xs.length
  let pos := q / 100 * ((n : ℝ) - 1)
  let i := ⌊pos⌋₊
  ys.getD i 0 + (pos - (⌊pos⌋₊ : ℝ)) * (ys.getD (min (i + 1) (n - 1)) 0 - ys.getD i 0)

/-- The sample-axis list `probs[c, p, :]` of the Class-Probability
Tensor. -/
def sampleAxis (slices : List (ℕ → ℕ → ℝ)) (c p : ℕ) : List ℝ :=
  slices.map (fun sl => sl c p)

/-- Entries of a sorted list read through `getD` are monotone in the
index. -/
lemma sorted_getD_mono (ys : List ℝ) (h : List.Sorted (fun a b => a ≤ b) ys)
    (i j : ℕ) (hij : i ≤ j) (hj : j < ys.length) :
    ys.getD i 0 ≤ ys.getD j 0 := by
  have hi : i < ys.length := lt_of_le_of_lt hij hj
  rw [List.getD_eq_getElem ys 0 hi, List.getD_eq_getElem ys 0 hj]
  rcases lt_or_eq_of_le hij with hlt | heq
  · have h2 : ys.get ⟨i, hi⟩ ≤ ys.get ⟨j, hj⟩ :=
      h.rel_get_of_lt (Fin.mk_lt_mk.mpr hlt)
    simpa using h2
  · subst heq
    exact le_refl _

/-- Linear interpolation between the order statistics of a sorted list
is monotone in the position. -/
lemma interp_mono (ys : List ℝ) (hsort : List.Sorted (fun a b => a ≤ b) ys)
    (n : ℕ) (hlen : ys.length = n) (pos1 pos2 : ℝ) (h0 : 0 ≤ pos1)
    (h12 : pos1 ≤ pos2) (hup : pos2 ≤ (n : ℝ) - 1) :
    ys.getD ⌊pos1⌋₊ 0 + (pos1 - (⌊pos1⌋₊ : ℝ)) *
        (ys.getD (min (⌊pos1⌋₊ + 1) (n - 1)) 0 - ys.getD ⌊pos1⌋₊ 0) ≤
      ys.getD ⌊pos2⌋₊ 0 + (pos2 - (⌊pos2⌋₊ : ℝ)) *
        (ys.getD (min (⌊pos2⌋₊ + 1) (n - 1)) 0 - ys.getD ⌊pos2⌋₊ 0) := by
  have h02 : 0 ≤ pos2 := le_trans h0 h12
  have hn1 : 1 ≤ n := by
    by_contra hc
    have hn0 : n = 0 := by omega
    rw [hn0] at hup
    push_cast at hup
    linarith
  have hcast : ((n - 1 : ℕ) : ℝ) = (n : ℝ) - 1 := by
    rw [Nat.cast_sub hn1, Nat.cast_one]
  have hi12 : ⌊pos1⌋₊ ≤ ⌊pos2⌋₊ := Nat.floor_le_floor h12
  have hi2n : ⌊pos2⌋₊ ≤ n - 1 := by
    have h2 := Nat.floor_le_floor (le_of_le_of_eq hup hcast.symm)
    rwa [Nat.floor_natCast] at h2
  have hfrac1lo : 0 ≤ pos1 - (⌊pos1⌋₊ : ℝ) := sub_nonneg.mpr (Nat.floor_le h0)
  have hfrac2lo : 0 ≤ pos2 - (⌊pos2⌋₊ : ℝ) := sub_nonneg.mpr (Nat.floor_le h02)
  have hfrac1hi : pos1 - (⌊pos1⌋₊ : ℝ) < 1 := by
    have h3 := Nat.lt_floor_add_one pos1
    linarith
  have hab1 : ys.getD ⌊pos1⌋₊ 0 ≤ ys.getD (min (⌊pos1⌋₊ + 1) (n - 1)) 0 := by
    apply sorted_getD_mono ys hsort _ _ (by omega) (by omega)
  have hab2 : ys.getD ⌊pos2⌋₊ 0 ≤ ys.getD (min (⌊pos2⌋₊ + 1) (n - 1)) 0 := by
    apply sorted_getD_mono ys hsort _ _ (by omega) (by omega)
  rcases eq_or_lt_of_le hi12 with heq | hlt
  · rw [← heq]
    have hf12 : pos1 - (⌊pos1⌋₊ : ℝ) ≤ pos2 - (⌊pos1⌋₊ : ℝ) := by linarith
    have hprod := mul_le_mul_of_nonneg_right hf12 (sub_nonneg.mpr hab1)
    linarith
  · have hup1 : ys.getD ⌊pos1⌋₊ 0 + (pos1 - (⌊pos1⌋₊ : ℝ)) *
        (ys.getD (min (⌊pos1⌋₊ + 1) (n - 1)) 0 - ys.getD ⌊pos1⌋₊ 0) ≤
          ys.getD (min (⌊pos1⌋₊ + 1) (n - 1)) 0 := by
      nlinarith [mul_nonneg (by linarith : (0:ℝ) ≤ 1 - (pos1 - (⌊pos1⌋₊ : ℝ)))
        (sub_nonneg.mpr hab1)]
    have hmid : ys.getD (min (⌊pos1⌋₊ + 1) (n - 1)) 0 ≤ ys.getD ⌊pos2⌋₊ 0 := by
      apply sorted_getD_mono ys hsort _ _ (by omega) (by omega)
    have hlow2 : ys.getD ⌊pos2⌋₊ 0 ≤ ys.getD ⌊pos2⌋₊ 0 + (pos2 - (⌊pos2⌋₊ : ℝ)) *
        (ys.getD (min (⌊pos2⌋₊ + 1) (n - 1)) 0 - ys.getD ⌊pos2⌋₊ 0) := by
      nlinarith [mul_nonneg hfrac2lo (sub_nonneg.mpr hab2)]
    linarith

/-- Monotonicity of `np.percentile` in the percentile argument. -/
lemma npPercentile_mono (xs : List ℝ) (q1 q2 : ℝ) (h0 : 0 ≤ q1)
    (h12 : q1 ≤ q2) (h100 : q2 ≤ 100) :
    npPercentile q1 xs ≤ npPercentile q2 xs := by
  rcases Nat.eq_zero_or_pos xs.length with hn0 | hposlen
  · have hxs : xs = [] := List.length_eq_zero.mp hn0
    subst hxs
    simp [npPercentile]
  · have hsort := List.sorted_insertionSort (fun a b => a ≤ b) xs
    have hlen : (List.insertionSort (fun a b => a ≤ b) xs).length = xs.length :=
      (List.perm_insertionSort _ xs).length_eq
    have hnn : (0 : ℝ) ≤ (xs.length : ℝ) - 1 := by
      have : (1 : ℝ) ≤ (xs.length : ℝ) := by exact_mod_cast hposlen
      linarith
    simp only [npPercentile]
    apply interp_mono _ hsort xs.length hlen
    · exact mul_nonneg (div_nonneg h0 (by norm_num)) hnn
    · exact mul_le_mul_of_nonneg_right
        (div_le_div_of_nonneg_right h12 (by norm_num)) hnn
    · have hq2 : q2 / 100 ≤ 1 := (div_le_one (by norm_num)).mpr h100
      calc q2 / 100 * ((xs.length : ℝ) - 1) ≤ 1 * ((xs.length : ℝ) - 1) :=
            mul_le_mul_of_nonneg_right hq2 hnn
        _ = (xs.length : ℝ) - 1 := one_mul _

/-- Design matrix of the counterexample: the 2×2 identity (one
prediction point, two classes). -/
def ceV : ℕ → ℕ → ℝ := fun r j => if r = j then 1 else 0

/-- Sample matrix of the counterexample: columns `0,…,99` hold the
parameter vector `(0, 1)`, column `100` holds `(1, 0)`. -/
def ceSamples : ℕ → ℕ → ℝ := fun idx i =>
  if i < 100 then (if idx = 0 then 0 else 1) else (if idx = 0 then 1 else 0)

/-- The Class-Probability Tensor of the counterexample, produced by the
aggregation loop with no burn-in over the `101` sample columns. -/
def ceProbs : List (ℕ → ℕ → ℝ) := (aggregate 2 1 101 0 ceV 2 ceSamples).getD []

/-- Sample-axis list of class `0` at prediction point `0`. -/
def ceAxis : List ℝ := sampleAxis ceProbs 0 0

/-- The low softmax probability `1 / (1 + e)` shared by the first 100
samples. -/
def ceLow : ℝ := 1 / (1 + Real.exp 1)

/-- The high softmax probability `e / (1 + e)` of the last sample. -/
def ceHigh : ℝ := Real.exp 1 / (1 + Real.exp 1)

lemma ceAxis_eq : ceAxis = List.replicate 100 ceLow ++ [ceHigh] := by
  have h1 : ceProbs = (List.range 101).map (fun j =>
      fun c p => classProbs 2 ceV 2 (fun idx => ceSamples idx (0 + j)) c p) := by
    rw [ceProbs, aggregate, if_neg (by norm_num)]
    rfl
  rw [ceAxis, h1, sampleAxis, List.map_map]
  rw [show (101 : ℕ) = 100 + 1 from rfl, List.range_succ, List.map_append]
  congr 1
  · refine List.eq_replicate_iff.mpr ⟨by simp, ?_⟩
    intro x hx
    simp only [List.mem_map, List.mem_range, Function.comp_apply] at hx
    obtain ⟨j, hj, hxe⟩ := hx
    rw [← hxe]
    have hcol : (fun idx => ceSamples idx (0 + j)) =
        fun idx => if idx = 0 then (0 : ℝ) else 1 := by
      funext idx
      simp [ceSamples, hj]
    rw [hcol]
    simp [classProbs, matVec, ceV, Finset.sum_range_succ, ceLow, Real.exp_zero]
  · have hcol : (fun idx => ceSamples idx (0 + 100)) =
        fun idx => if idx = 0 then (1 : ℝ) else 0 := by
      funext idx
      simp [ceSamples]
    simp only [List.map_cons, List.map_nil, Function.comp_apply]
    rw [hcol]
    simp [classProbs, matVec, ceV, Finset.sum_range_succ, ceHigh, Real.exp_zero,
      add_comm]

lemma ceLow_lt_ceHigh : ceLow < ceHigh := by
  have hd : (0 : ℝ) < 1 + Real.exp 1 := by positivity
  have he : (1 : ℝ) < Real.exp 1 := by
    have h := Real.exp_lt_exp.mpr (show (0 : ℝ) < 1 by norm_num)
    rwa [Real.exp_zero] at h
  rw [ceLow, ceHigh]
  exact (div_lt_div_iff_of_pos_right hd).mpr he

lemma sorted_replicate_le (k : ℕ) (a : ℝ) :
    List.Sorted (fun x y => x ≤ y) (List.replicate k a) := by
  induction k with
  | zero => simp
  | succ k ih =>
    rw [List.replicate_succ]
    refine List.Pairwise.cons ?_ ih
    intro b hb
    rw [List.eq_of_mem_replicate hb]

lemma ceList_sorted :
    List.Sorted (fun x y => x ≤ y) (List.replicate 100 ceLow ++ [ceHigh]) := by
  refine List.pairwise_append.mpr ⟨sorted_replicate_le 100 ceLow, by simp, ?_⟩
  intro x hx y hy
  rw [List.eq_of_mem_replicate hx]
  rw [List.mem_singleton.mp hy]
  exact le_of_lt ceLow_lt_ceHigh

lemma ceList_getD_99 : (List.replicate 100 ceLow ++ [ceHigh]).getD 99 0 = ceLow := by
  rw [List.getD_append _ _ _ _ (by simp)]
  rw [List.getD_eq_getElem _ _ (by simp)]
  simp

lemma npPercentile_ce :
    npPercentile 99 (List.replicate 100 ceLow ++ [ceHigh]) = ceLow := by
  simp only [npPercentile, ceList_sorted.insertionSort_eq]
  rw [show (List.replicate 100 ceLow ++ [ceHigh]).length = 101 from by simp]
  rw [show (99 : ℝ) / 100 * (((101 : ℕ) : ℝ) - 1) = 99 from by norm_num]
  rw [show ⌊(99 : ℝ)⌋₊ = 99 from by norm_num]
  rw [ceList_getD_99]
  norm_num

lemma npMean_ce :
    npMean (List.replicate 100 ceLow ++ [ceHigh]) = (100 * ceLow + ceHigh) / 101 := by
  rw [npMean]
  rw [List.sum_append, List.sum_replicate, List.sum_cons, List.sum_nil]
  rw [List.length_append, List.length_replicate, List.length_singleton]
  rw [nsmul_eq_mul]
  norm_num

/-- Counterexample for C6: on the Class-Probability Tensor produced by
the aggregation loop from the identity design matrix and 101 samples
(100 copies of `(0,1)` and one `(1,0)`), the class-0 probabilities at
prediction point 0 violate the claimed band ordering: the mean exceeds
the 99th percentile. -/
theorem percentile_mean_not_monotone :
    ¬ (npPercentile 1 ceAxis ≤ npMean ceAxis ∧
       npMean ceAxis ≤ npPercentile 99 ceAxis) := by
  rw [ceAxis_eq, npPercentile_ce, npMean_ce]
  intro h
  have h2 := h.2
  have hlh := ceLow_lt_ceHigh
  rw [div_le_iff₀ (by norm_num : (0 : ℝ) < 101)] at h2
  linarith

/-- C6 (amended): the percentile bands themselves are ordered — for any
sample axis of the Class-Probability Tensor the 1st percentile is at
most the 99th percentile (and generally `np.percentile` is monotone in
the percentile argument); the mean, however, need not lie between the
two bands. -/
theorem percentile_bands_monotone (slices : List (ℕ → ℕ → ℝ)) (c p : ℕ)
    (q1 q2 : ℝ) (h0 : 0 ≤ q1) (h12 : q1 ≤ q2) (h100 : q2 ≤ 100) :
    npPercentile q1 (sampleAxis slices c p) ≤
      npPercentile q2 (sampleAxis slices c p) :=
  npPercentile_mono (sampleAxis slices c p) q1 q2 h0 h12 h100

/-- Witness for C6 (amended): percentile monotonicity at the band pair
`(1, 99)` on an empty tensor. -/
theorem percentile_bands_monotone_witness :
    npPercentile 1 (sampleAxis [] 0 0) ≤ npPercentile 99 (sampleAxis [] 0 0) :=
  percentile_bands_monotone [] 0 0 1 99 (by norm_num) (by norm_num) (by norm_num)

/-- Witness for C2: the posterior split at a concrete one-class,
one-observation graph with zero design matrix and zero parameter. -/
theorem posterior_graph_eval_witness :
    evalNode (iceGraph 1 1 1 (fun _ _ => 0) (fun _ => 0)) (fun _ => 0) 5 "Posterior" 0 =
      gaussianLogDensity (1 * 1) (fun _ => 0) (fun _ => 100) (fun _ => 0) +
        multiLogisticLogDensity 1 1 (fun _ => 0)
          (matVec (fun _ _ => 0) (1 * 1) (fun _ => 0)) :=
  posterior_graph_eval 1 1 1 (fun _ _ => 0) (fun _ => 0) (fun _ => 0)

/-- Witness for C8 (amended): the notebook's configuration `D = 3`,
`P = 2` with one observation yields one row per observation. -/
theorem buildVandermonde_shape_witness :
    (buildVandermonde 3 2 1 (fun _ _ => 0)).map List.length =
      List.replicate 1 (totalOrderIndices 3 2).length :=
  buildVandermonde_shape 3 2 1 (fun _ _ => 0)
